import Mathlib

/-!
# Verification of the zircon bytecode loader and virtual machine

A shallow embedding of the repository's two core files:

* `bytecode.rs`: the opcode table, the tagged `Value` type with its
  arithmetic/logical operation table, `Instruction`, `Function`,
  `Bytecode`, and the binary-module loader (`Bytecode::from_file`,
  `read_constant`, `read_function`).
* `vm.rs`: `CallFrame` and `VirtualMachine`, embedded as a single-step
  transition function `step` plus a fuelled driver `run` mirroring
  `VirtualMachine::run`.

Modelling conventions:

* Rust `panic!` / `expect` become explicit `fault` results (`StepResult` /
  `Except String`); the fault messages are the panic messages of the source.
* `Vec` stacks (operand stack, frame stack) become `List` with the head as
  the top / current element, so `push` is `cons` and `pop` takes the head.
* The `HashMap<usize, Value>` of per-frame locals becomes the function
  `Nat → Option Value`, with insertion as pointwise update.
* `f64` payloads are carried as their raw 64-bit little-endian bit
  patterns (`Nat`). Hardware IEEE-754 arithmetic is outside the shallow
  embedding, so the numeric operations on those patterns are abstracted as
  a `FloatOps` parameter; every theorem below holds for every
  interpretation of `FloatOps`, in particular the IEEE one. Nothing proved
  here depends on the value computed by a float operation, only on how the
  machine moves values around.
* Byte streams are `List Nat`, one byte (0..255) per element.
-/

namespace Zircon

/-- Abstraction of the `f64` operations used by `Value` in `bytecode.rs`:
`+`, `-`, `*`, `/`, `%`, unary `-` and `==` on 64-bit float bit patterns.
The theorems quantify over every interpretation of this structure. -/
structure FloatOps where
  fadd : Nat → Nat → Nat
  fsub : Nat → Nat → Nat
  fmul : Nat → Nat → Nat
  fdiv : Nat → Nat → Nat
  fmod : Nat → Nat → Nat
  fneg : Nat → Nat
  feq : Nat → Nat → Bool

/-- The opcode enumeration of `bytecode.rs`. -/
inductive Opcode where
  | PushConst
  | Add
  | Subtract
  | Multiply
  | Divide
  | Modulo
  | Negate
  | And
  | Or
  | Not
  | Equal
  | Jump
  | JumpIfTrue
  | JumpIfFalse
  | Print
  | GetLocal
  | SetLocal
  | Call
  | Return
  | Halt
deriving DecidableEq

/-- The wire tag of each opcode (the discriminant values of the Rust enum). -/
def Opcode.toU8 : Opcode → Nat
  | .PushConst => 0x01
  | .Add => 0x10
  | .Subtract => 0x11
  | .Multiply => 0x12
  | .Divide => 0x13
  | .Modulo => 0x14
  | .Negate => 0x15
  | .And => 0x20
  | .Or => 0x21
  | .Not => 0x22
  | .Equal => 0x30
  | .Jump => 0x40
  | .JumpIfTrue => 0x41
  | .JumpIfFalse => 0x42
  | .Print => 0x60
  | .GetLocal => 0x70
  | .SetLocal => 0x71
  | .Call => 0x80
  | .Return => 0x81
  | .Halt => 0xFF

/-- `Opcode::from_u8` of `bytecode.rs`: decode a tag byte, unknown tags are
an error. -/
def Opcode.from_u8 (value : Nat) : Except String Opcode :=
  match value with
  | 0x01 => .ok .PushConst
  | 0x10 => .ok .Add
  | 0x11 => .ok .Subtract
  | 0x12 => .ok .Multiply
  | 0x13 => .ok .Divide
  | 0x14 => .ok .Modulo
  | 0x15 => .ok .Negate
  | 0x20 => .ok .And
  | 0x21 => .ok .Or
  | 0x22 => .ok .Not
  | 0x30 => .ok .Equal
  | 0x40 => .ok .Jump
  | 0x41 => .ok .JumpIfTrue
  | 0x42 => .ok .JumpIfFalse
  | 0x60 => .ok .Print
  | 0x70 => .ok .GetLocal
  | 0x71 => .ok .SetLocal
  | 0x80 => .ok .Call
  | 0x81 => .ok .Return
  | 0xFF => .ok .Halt
  | _ => .error "Unknown opcode"

/-- `Opcode::has_operand` of `bytecode.rs`: the static opcode-arity table. -/
def Opcode.has_operand : Opcode → Bool
  | .PushConst => true
  | .Add => false
  | .Subtract => false
  | .Multiply => false
  | .Divide => false
  | .Modulo => false
  | .Negate => false
  | .And => false
  | .Or => false
  | .Not => false
  | .Equal => false
  | .Jump => true
  | .JumpIfTrue => true
  | .JumpIfFalse => true
  | .Print => false
  | .GetLocal => true
  | .SetLocal => true
  | .Call => true
  | .Return => false
  | .Halt => false

/-- `Instruction` of `bytecode.rs`: an opcode with an optional 16-bit
operand. -/
structure Instruction where
  opcode : Opcode
  operand : Option Nat
deriving DecidableEq

/-- `Value` of `bytecode.rs`. `Number` carries the raw 64-bit bit pattern of
the `f64` payload (see the module comment). -/
inductive Value where
  | Number (bits : Nat)
  | Boolean (b : Bool)
  | Str (s : String)
deriving DecidableEq

/-- `Value::add`: defined only on two numbers, anything else panics. -/
def Value.add (ops : FloatOps) : Value → Value → Except String Value
  | .Number a, .Number b => .ok (.Number (ops.fadd a b))
  | _, _ => .error "Invalid operand types for add."

/-- `Value::subtract`. -/
def Value.subtract (ops : FloatOps) : Value → Value → Except String Value
  | .Number a, .Number b => .ok (.Number (ops.fsub a b))
  | _, _ => .error "Invalid operand types for subtract."

/-- `Value::multiply`. -/
def Value.multiply (ops : FloatOps) : Value → Value → Except String Value
  | .Number a, .Number b => .ok (.Number (ops.fmul a b))
  | _, _ => .error "Invalid operand types for multiply."

/-- `Value::divide`. -/
def Value.divide (ops : FloatOps) : Value → Value → Except String Value
  | .Number a, .Number b => .ok (.Number (ops.fdiv a b))
  | _, _ => .error "Invalid operand types for divide."

/-- `Value::modulo`. -/
def Value.modulo (ops : FloatOps) : Value → Value → Except String Value
  | .Number a, .Number b => .ok (.Number (ops.fmod a b))
  | _, _ => .error "Invalid operand types for modulo."

/-- `Value::negate`. -/
def Value.negate (ops : FloatOps) : Value → Except String Value
  | .Number a => .ok (.Number (ops.fneg a))
  | _ => .error "Invalid operand type for negate."

/-- `Value::logical_and`: defined only on two booleans. -/
def Value.logical_and : Value → Value → Except String Value
  | .Boolean a, .Boolean b => .ok (.Boolean (a && b))
  | _, _ => .error "Invalid operand types for logical and."

/-- `Value::logical_or`. -/
def Value.logical_or : Value → Value → Except String Value
  | .Boolean a, .Boolean b => .ok (.Boolean (a || b))
  | _, _ => .error "Invalid operand types for logical or."

/-- `Value::logical_not`. -/
def Value.logical_not : Value → Except String Value
  | .Boolean a => .ok (.Boolean (!a))
  | _ => .error "Invalid operand type for logical not."

/-- `impl PartialEq for Value` of `bytecode.rs`: same-variant values compare
by payload equality (number payloads through the abstracted float `==`),
different variants are always unequal. -/
def Value.eqv (ops : FloatOps) : Value → Value → Bool
  | .Number a, .Number b => ops.feq a b
  | .Boolean a, .Boolean b => a == b
  | .Str a, .Str b => a == b
  | _, _ => false

/-- True when the two values are built from the same constructor of
`Value`. -/
def Value.sameVariant : Value → Value → Bool
  | .Number _, .Number _ => true
  | .Boolean _, .Boolean _ => true
  | .Str _, .Str _ => true
  | _, _ => false

/-- `Function` of `bytecode.rs`: instruction sequence plus declared argument
count. -/
structure Function where
  instructions : List Instruction
  num_args : Nat
deriving DecidableEq

/-- `Function::get_instruction`: fetch by index; an out-of-range index panics
in the source, so here it is `none`. -/
def Function.get_instruction (f : Function) (index : Nat) : Option Instruction :=
  f.instructions[index]?

/-- `Bytecode` of `bytecode.rs`: the loaded program, a function table and a
constant pool. -/
structure Bytecode where
  functions : List Function
  constants : List Value
deriving DecidableEq

/-- `Bytecode::get_function`: panics on an out-of-range index, so `none`
here. -/
def Bytecode.get_function (bc : Bytecode) (index : Nat) : Option Function :=
  bc.functions[index]?

/-- `Bytecode::get_constant`: already returns `Option` in the source. -/
def Bytecode.get_constant (bc : Bytecode) (index : Nat) : Option Value :=
  bc.constants[index]?

/-- `CallFrame` of `vm.rs`. The operand stack has its top at the head; the
locals `HashMap` is a partial function from slot index to value. -/
structure CallFrame where
  instruction_pointer : Nat
  function_index : Nat
  stack : List Value
  locals : Nat → Option Value

/-- `CallFrame::new`: pointer 0, empty stack, no locals. -/
def CallFrame.new (func_index : Nat) : CallFrame :=
  { instruction_pointer := 0, function_index := func_index, stack := [], locals := fun _ => none }

/-- `CallFrame::set_local`: insert, overwriting any prior value at the
slot. -/
def CallFrame.set_local (fr : CallFrame) (index : Nat) (value : Value) : CallFrame :=
  { fr with locals := fun j => if j = index then some value else fr.locals j }

/-- `VirtualMachine` of `vm.rs`. The frame stack has the current (innermost)
frame at the head. `output` records the values emitted by `Print`
instructions, in emission order, standing in for stdout. -/
structure VirtualMachine where
  is_running : Bool
  bytecode : Bytecode
  frames : List CallFrame
  output : List Value

/-- The outcome of one iteration of the `VirtualMachine::run` loop body: a
new machine state, or a fatal fault (a Rust panic) with its message. -/
inductive StepResult where
  | ok (vm : VirtualMachine)
  | fault (msg : String)

/-- The opcode dispatch inside `VirtualMachine::binary_op`: `val1` is the
value popped second (the left operand), `val2` the value popped first. -/
def binApply (ops : FloatOps) : Opcode → Value → Value → Except String Value
  | .Add, val1, val2 => val1.add ops val2
  | .Subtract, val1, val2 => val1.subtract ops val2
  | .Multiply, val1, val2 => val1.multiply ops val2
  | .Divide, val1, val2 => val1.divide ops val2
  | .Modulo, val1, val2 => val1.modulo ops val2
  | .And, val1, val2 => val1.logical_and val2
  | .Or, val1, val2 => val1.logical_or val2
  | _, _, _ => .error "Invalid opcode for binary operation."

/-- `VirtualMachine::binary_op`: pop the right operand, pop the left
operand, apply, push the result. Fewer than two stack values is the
`pop_operand` panic; a variant mismatch is the `Value` panic. -/
def binary_op (ops : FloatOps) (opcode : Opcode) (fr : CallFrame) : Except String CallFrame :=
  match fr.stack with
  | val2 :: val1 :: s =>
    match binApply ops opcode val1 val2 with
    | .ok result => .ok { fr with stack := result :: s }
    | .error e => .error e
  | _ => .error "Stack underflow."

/-- The opcode dispatch inside `VirtualMachine::unary_op`. -/
def unApply (ops : FloatOps) : Opcode → Value → Except String Value
  | .Not, val => val.logical_not
  | .Negate, val => val.negate ops
  | _, _ => .error "Invalid opcode for unary operation."

/-- `VirtualMachine::unary_op`: pop once, apply, push the result. -/
def unary_op (ops : FloatOps) (opcode : Opcode) (fr : CallFrame) : Except String CallFrame :=
  match fr.stack with
  | val :: s =>
    match unApply ops opcode val with
    | .ok result => .ok { fr with stack := result :: s }
    | .error e => .error e
  | _ => .error "Stack underflow."

/-- The argument-binding loop of the `Opcode::Call` arm in
`VirtualMachine::run`: with `k` arguments still to bind, pop one value off
the caller's stack and store it in the callee frame at slot `k - 1`
(`num_args - i - 1` in the source), then recurse. `none` is the
`pop_operand` panic on an exhausted caller stack. -/
def bindArgs : Nat → CallFrame → CallFrame → Option (CallFrame × CallFrame)
  | 0, caller, callee => some (caller, callee)
  | k + 1, caller, callee =>
    match caller.stack with
    | [] => none
    | arg :: s => bindArgs k { caller with stack := s } (callee.set_local k arg)

/-- One iteration of the `VirtualMachine::run` loop body: fetch the
instruction at the current frame's pointer (out of range panics), advance
the pointer by one, then dispatch on the opcode exactly as the source's
`match` does. -/
def step (ops : FloatOps) (vm : VirtualMachine) : StepResult :=
  match vm.frames with
  | [] => .fault "Call stack is empty."
  | frame :: rest =>
    match vm.bytecode.get_function frame.function_index with
    | none => .fault "Invalid function index"
    | some current_function =>
    match current_function.get_instruction frame.instruction_pointer with
    | none => .fault "Invalid instruction index"
    | some instruction =>
    let fr : CallFrame := { frame with instruction_pointer := frame.instruction_pointer + 1 }
    match instruction.opcode with
    | .PushConst =>
      match instruction.operand with
      | none => .fault "Instruction has no operand"
      | some idx =>
        match vm.bytecode.get_constant idx with
        | none => .fault "Constant index out of range."
        | some constant => .ok { vm with frames := { fr with stack := constant :: fr.stack } :: rest }
    | .Add | .Subtract | .Multiply | .Divide | .Modulo | .And | .Or =>
      match binary_op ops instruction.opcode fr with
      | .ok fr2 => .ok { vm with frames := fr2 :: rest }
      | .error e => .fault e
    | .Not | .Negate =>
      match unary_op ops instruction.opcode fr with
      | .ok fr2 => .ok { vm with frames := fr2 :: rest }
      | .error e => .fault e
    | .Equal =>
      match fr.stack with
      | val2 :: val1 :: s =>
        .ok { vm with frames := { fr with stack := .Boolean (Value.eqv ops val1 val2) :: s } :: rest }
      | _ => .fault "Stack underflow."
    | .Jump =>
      match instruction.operand with
      | none => .fault "Instruction has no operand"
      | some target => .ok { vm with frames := { fr with instruction_pointer := target } :: rest }
    | .JumpIfTrue =>
      match fr.stack with
      | [] => .fault "Stack underflow."
      | .Boolean true :: s =>
        match instruction.operand with
        | none => .fault "Instruction has no operand"
        | some target =>
          .ok { vm with frames := { fr with instruction_pointer := target, stack := s } :: rest }
      | _ :: s => .ok { vm with frames := { fr with stack := s } :: rest }
    | .JumpIfFalse =>
      match fr.stack with
      | [] => .fault "Stack underflow."
      | .Boolean false :: s =>
        match instruction.operand with
        | none => .fault "Instruction has no operand"
        | some target =>
          .ok { vm with frames := { fr with instruction_pointer := target, stack := s } :: rest }
      | _ :: s => .ok { vm with frames := { fr with stack := s } :: rest }
    | .Print =>
      match fr.stack with
      | [] => .fault "Stack underflow."
      | val :: s =>
        .ok { vm with frames := { fr with stack := s } :: rest, output := vm.output ++ [val] }
    | .GetLocal =>
      match instruction.operand with
      | none => .fault "Instruction has no operand"
      | some idx =>
        match fr.locals idx with
        | none => .fault "Local variable not found."
        | some val => .ok { vm with frames := { fr with stack := val :: fr.stack } :: rest }
    | .SetLocal =>
      match fr.stack with
      | [] => .fault "Stack underflow."
      | val :: s =>
        match instruction.operand with
        | none => .fault "Instruction has no operand"
        | some idx =>
          .ok { vm with frames := CallFrame.set_local { fr with stack := s } idx val :: rest }
    | .Call =>
      match instruction.operand with
      | none => .fault "Instruction has no operand"
      | some func_index =>
        match vm.bytecode.get_function func_index with
        | none => .fault "Invalid function index"
        | some func_to_call =>
          match bindArgs func_to_call.num_args fr (CallFrame.new func_index) with
          | none => .fault "Stack underflow."
          | some (caller, new_frame) => .ok { vm with frames := new_frame :: caller :: rest }
    | .Return =>
      let return_value : Value :=
        match fr.stack with
        | [] => .Boolean false
        | val :: _ => val
      match rest with
      | [] => .ok { vm with frames := [] }
      | caller :: rs =>
        .ok { vm with frames := { caller with stack := return_value :: caller.stack } :: rs }
    | .Halt => .ok { vm with is_running := false, frames := fr :: rest }

/-- The outcome of driving the machine with bounded fuel. -/
inductive RunResult where
  | finished (vm : VirtualMachine)
  | fault (msg : String)
  | outOfFuel (vm : VirtualMachine)

/-- The `while` loop of `VirtualMachine::run`, with fuel to make it total:
loop while the call stack is non-empty and the machine is running. -/
def runLoop (ops : FloatOps) : Nat → VirtualMachine → RunResult
  | 0, vm => .outOfFuel vm
  | fuel + 1, vm =>
    if vm.frames.isEmpty || !vm.is_running then .finished vm
    else
      match step ops vm with
      | .ok vm2 => runLoop ops fuel vm2
      | .fault msg => .fault msg

/-- `VirtualMachine::run`: push a frame for function index 0 and enter the
loop. -/
def run (ops : FloatOps) (fuel : Nat) (bc : Bytecode) : RunResult :=
  runLoop ops fuel
    { is_running := true, bytecode := bc, frames := [CallFrame.new 0], output := [] }

/-- Read `k` bytes as a little-endian unsigned integer (the
`read_u8` / `read_u16` / `read_u32` / `read_f64`-bit reads of the source;
`none` is a truncated stream). -/
def readLE : Nat → List Nat → Option (Nat × List Nat)
  | 0, s => some (0, s)
  | k + 1, s =>
    match s with
    | [] => none
    | b :: rest =>
      match readLE k rest with
      | none => none
      | some (v, s2) => some (b + 256 * v, s2)

/-- Render a number as `k` little-endian bytes (the byte grammar of §6 of
the format description). -/
def toLE : Nat → Nat → List Nat
  | 0, _ => []
  | k + 1, n => n % 256 :: toLE k (n / 256)

/-- `read_exact` into a buffer of `n` bytes: `none` when the stream is
shorter. -/
def readBytes (n : Nat) (s : List Nat) : Option (List Nat × List Nat) :=
  if n ≤ s.length then some (s.take n, s.drop n) else none

/-- Decode a single UTF-8 encoded scalar value from the head of a byte
list, rejecting continuation-byte errors, overlong forms, surrogates and
out-of-range values exactly as `String::from_utf8` does. -/
def utf8DecodeChar : List Nat → Option (Char × List Nat)
  | [] => none
  | b :: rest =>
    if b < 0x80 then some (Char.ofNat b, rest)
    else if b < 0xC2 then none
    else if b < 0xE0 then
      match rest with
      | b1 :: rest1 =>
        if 0x80 ≤ b1 ∧ b1 ≤ 0xBF then
          some (Char.ofNat ((b - 0xC0) * 0x40 + (b1 - 0x80)), rest1)
        else none
      | [] => none
    else if b < 0xF0 then
      match rest with
      | b1 :: b2 :: rest2 =>
        if (if b = 0xE0 then 0xA0 else 0x80) ≤ b1 ∧ b1 ≤ (if b = 0xED then 0x9F else 0xBF) ∧
            0x80 ≤ b2 ∧ b2 ≤ 0xBF then
          some (Char.ofNat ((b - 0xE0) * 0x1000 + (b1 - 0x80) * 0x40 + (b2 - 0x80)), rest2)
        else none
      | _ => none
    else if b < 0xF5 then
      match rest with
      | b1 :: b2 :: b3 :: rest3 =>
        if (if b = 0xF0 then 0x90 else 0x80) ≤ b1 ∧ b1 ≤ (if b = 0xF4 then 0x8F else 0xBF) ∧
            0x80 ≤ b2 ∧ b2 ≤ 0xBF ∧ 0x80 ≤ b3 ∧ b3 ≤ 0xBF then
          some (Char.ofNat
            ((b - 0xF0) * 0x40000 + (b1 - 0x80) * 0x1000 + (b2 - 0x80) * 0x40 + (b3 - 0x80)), rest3)
        else none
      | _ => none
    else none

/-- Decode a whole byte list as UTF-8, one scalar at a time. The fuel is
the list length; `utf8DecodeChar` consumes at least one byte per scalar,
so the fuel never runs out on the lists it is called with. -/
def utf8DecodeAux : Nat → List Nat → Option (List Char)
  | _, [] => some []
  | 0, _ :: _ => none
  | fuel + 1, s =>
    match utf8DecodeChar s with
    | none => none
    | some (c, rest) =>
      match utf8DecodeAux fuel rest with
      | none => none
      | some cs => some (c :: cs)

/-- `String::from_utf8` of the string-constant branch of `read_constant`:
the decoded characters, or `none` on invalid UTF-8. -/
def utf8Decode (s : List Nat) : Option (List Char) :=
  utf8DecodeAux s.length s

/-- `read_constant` of `bytecode.rs`: a tag byte, then the payload of the
variant the tag selects. -/
def read_constant (s : List Nat) : Except String (Value × List Nat) :=
  match readLE 1 s with
  | none => .error "truncated"
  | some (type_id, s1) =>
    if type_id = 0x01 then
      match readLE 8 s1 with
      | none => .error "truncated"
      | some (bits, s2) => .ok (.Number bits, s2)
    else if type_id = 0x02 then
      match readLE 1 s1 with
      | none => .error "truncated"
      | some (b, s2) => .ok (.Boolean (b != 0), s2)
    else if type_id = 0x03 then
      match readLE 2 s1 with
      | none => .error "truncated"
      | some (len, s2) =>
        match readBytes len s2 with
        | none => .error "truncated"
        | some (buffer, s3) =>
          match utf8Decode buffer with
          | none => .error "invalid utf-8"
          | some chars => .ok (.Str (String.mk chars), s3)
    else .error "Unknown constant type"

/-- The constant-reading loop of `Bytecode::from_file`. -/
def read_constants : Nat → List Nat → Except String (List Value × List Nat)
  | 0, s => .ok ([], s)
  | k + 1, s =>
    match read_constant s with
    | .error e => .error e
    | .ok (c, s1) =>
      match read_constants k s1 with
      | .error e => .error e
      | .ok (cs, s2) => .ok (c :: cs, s2)

/-- The instruction-reading loop of `read_function`: an opcode tag byte,
then a 2-byte little-endian operand exactly when `Opcode.has_operand` says
the opcode carries one. -/
def read_instructions : Nat → List Nat → Except String (List Instruction × List Nat)
  | 0, s => .ok ([], s)
  | k + 1, s =>
    match readLE 1 s with
    | none => .error "truncated"
    | some (b, s1) =>
      match Opcode.from_u8 b with
      | .error e => .error e
      | .ok opcode =>
        if opcode.has_operand then
          match readLE 2 s1 with
          | none => .error "truncated"
          | some (v, s2) =>
            match read_instructions k s2 with
            | .error e => .error e
            | .ok (instrs, s3) => .ok (⟨opcode, some v⟩ :: instrs, s3)
        else
          match read_instructions k s1 with
          | .error e => .error e
          | .ok (instrs, s3) => .ok (⟨opcode, none⟩ :: instrs, s3)

/-- `read_function` of `bytecode.rs`: instruction count, argument count,
then the instructions. -/
def read_function (s : List Nat) : Except String (Function × List Nat) :=
  match readLE 4 s with
  | none => .error "truncated"
  | some (num_instructions, s1) =>
    match readLE 4 s1 with
    | none => .error "truncated"
    | some (num_args, s2) =>
      match read_instructions num_instructions s2 with
      | .error e => .error e
      | .ok (instructions, s3) => .ok (⟨instructions, num_args⟩, s3)

/-- The function-reading loop of `Bytecode::from_file`. -/
def read_functions : Nat → List Nat → Except String (List Function × List Nat)
  | 0, s => .ok ([], s)
  | k + 1, s =>
    match read_function s with
    | .error e => .error e
    | .ok (f, s1) =>
      match read_functions k s1 with
      | .error e => .error e
      | .ok (fs, s2) => .ok (f :: fs, s2)

/-- The 4-byte magic tag checked by `Bytecode::from_file`: the ASCII bytes
of Z, R, C, N. -/
def MAGIC : List Nat := [0x5A, 0x52, 0x43, 0x4E]

/-- `Bytecode::from_file` of `bytecode.rs`, on an in-memory byte stream:
magic, version, constant pool, function table. Trailing bytes after the
last function are ignored, as in the source. -/
def Bytecode.from_bytes (s : List Nat) : Except String Bytecode :=
  match readBytes 4 s with
  | none => .error "truncated"
  | some (magic, s1) =>
    if magic = MAGIC then
      match readLE 1 s1 with
      | none => .error "truncated"
      | some (version, s2) =>
        if version = 1 then
          match readLE 4 s2 with
          | none => .error "truncated"
          | some (num_constants, s3) =>
            match read_constants num_constants s3 with
            | .error e => .error e
            | .ok (constants, s4) =>
              match readLE 4 s4 with
              | none => .error "truncated"
              | some (num_functions, s5) =>
                match read_functions num_functions s5 with
                | .error e => .error e
                | .ok (functions, _) => .ok ⟨functions, constants⟩
        else .error "Unsupported version"
    else .error "Invalid magic number"

/-- One constant record of the §6 byte grammar, with its raw wire payload:
tag 1 carries 8 bytes of float payload (here the 64-bit value), tag 2 one
byte, tag 3 a length-prefixed byte sequence. -/
inductive ConstRecord where
  | num (bits : Nat)
  | boolean (byte : Nat)
  | str (bytes : List Nat)
deriving DecidableEq

/-- The `Value` the loader builds from a constant record, mirroring the
tag branches of `read_constant`. -/
def interpConst : ConstRecord → Value
  | .num bits => .Number bits
  | .boolean byte => .Boolean (byte != 0)
  | .str bytes => .Str (String.mk ((utf8Decode bytes).getD []))

/-- Serialize one constant record per the §6 grammar. -/
def encodeConst : ConstRecord → List Nat
  | .num bits => 0x01 :: toLE 8 bits
  | .boolean byte => [0x02, byte]
  | .str bytes => 0x03 :: (toLE 2 bytes.length ++ bytes)

/-- Serialize one instruction per the §6 grammar: the opcode tag byte,
then the 2-byte operand when the instruction carries one. -/
def encodeInstruction (i : Instruction) : List Nat :=
  i.opcode.toU8 ::
    (match i.operand with
     | some v => toLE 2 v
     | none => [])

/-- Serialize one function record per the §6 grammar. -/
def encodeFunction (f : Function) : List Nat :=
  toLE 4 f.instructions.length ++ toLE 4 f.num_args ++ (f.instructions.map encodeInstruction).flatten

/-- A whole module as the §6 grammar describes it: a constant-record list
and a function list. Function records already coincide with the in-memory
`Function` (instruction list plus argument count), so they are reused. -/
structure ModuleTree where
  constants : List ConstRecord
  functions : List Function
deriving DecidableEq

/-- Serialize a module per the §6 grammar: magic, version 1, counted
constants, counted functions. -/
def encodeModule (t : ModuleTree) : List Nat :=
  MAGIC ++ [1] ++ toLE 4 t.constants.length ++ (t.constants.map encodeConst).flatten
    ++ toLE 4 t.functions.length ++ (t.functions.map encodeFunction).flatten

/-- Well-formedness of a constant record per the §6 grammar: payloads fit
their wire width, bytes are bytes, string payloads are valid UTF-8. -/
def wfConst : ConstRecord → Bool
  | .num bits => bits < 2 ^ 64
  | .boolean byte => byte < 256
  | .str bytes =>
    bytes.length < 2 ^ 16 && bytes.all (fun b => b < 256) && (utf8Decode bytes).isSome

/-- Well-formedness of an instruction per the §6 grammar: the operand is
present exactly when the static arity table declares one, and fits in two
bytes. -/
def wfInstruction (i : Instruction) : Bool :=
  i.operand.isSome = i.opcode.has_operand &&
    (match i.operand with
     | some v => v < 2 ^ 16
     | none => true)

/-- Well-formedness of a function record per the §6 grammar. -/
def wfFunction (f : Function) : Bool :=
  f.instructions.length < 2 ^ 32 && f.num_args < 2 ^ 32 && f.instructions.all wfInstruction

/-- Well-formedness of a whole module per the §6 grammar. -/
def wfModule (t : ModuleTree) : Bool :=
  t.constants.length < 2 ^ 32 && t.functions.length < 2 ^ 32 &&
    t.constants.all wfConst && t.functions.all wfFunction

/-- A sample interpretation of the abstracted float operations, used only
to instantiate theorems at concrete inputs. -/
def natOps : FloatOps :=
  { fadd := Nat.add, fsub := Nat.sub, fmul := Nat.mul, fdiv := Nat.div,
    fmod := Nat.mod, fneg := id, feq := fun a b => a == b }

/-! ## Byte-level round-trip lemmas -/

theorem toLE_length (k n : Nat) : (toLE k n).length = k := by
  induction k generalizing n with
  | zero => rfl
  | succ k ih => simp [toLE, ih]

theorem readLE_toLE (k : Nat) : ∀ (n : Nat) (rest : List Nat), n < 256 ^ k →
    readLE k (toLE k n ++ rest) = some (n, rest) := by
  induction k with
  | zero =>
    intro n rest h
    interval_cases n
    rfl
  | succ k ih =>
    intro n rest h
    have hdiv : n / 256 < 256 ^ k := by
      rw [Nat.div_lt_iff_lt_mul (by norm_num)]
      calc n < 256 ^ (k + 1) := h
        _ = 256 ^ k * 256 := by ring
    simp only [toLE, List.cons_append, readLE, ih (n / 256) rest hdiv]
    congr 1
    congr 1
    omega

theorem readBytes_append (l rest : List Nat) :
    readBytes l.length (l ++ rest) = some (l, rest) := by
  simp [readBytes, List.take_left, List.drop_left]

theorem from_u8_toU8 (op : Opcode) : Opcode.from_u8 op.toU8 = .ok op := by
  cases op <;> rfl

theorem readLE_one (b : Nat) (rest : List Nat) : readLE 1 (b :: rest) = some (b, rest) := by
  simp [readLE]

/-! ## Record-level round-trip lemmas -/

theorem read_constant_encode (c : ConstRecord) (rest : List Nat) (h : wfConst c = true) :
    read_constant (encodeConst c ++ rest) = .ok (interpConst c, rest) := by
  cases c with
  | num bits =>
    simp only [wfConst, decide_eq_true_eq] at h
    simp only [encodeConst, List.cons_append, read_constant, readLE_one,
      readLE_toLE 8 bits rest (by simpa using h), interpConst]
    norm_num
  | boolean byte =>
    simp only [encodeConst, List.cons_append, read_constant, readLE_one, interpConst]
    norm_num
  | str bytes =>
    simp only [wfConst, Bool.and_eq_true, decide_eq_true_eq, Option.isSome_iff_exists] at h
    obtain ⟨⟨hlen, _⟩, chars, hchars⟩ := h
    simp only [encodeConst, List.cons_append, read_constant, readLE_one, List.append_assoc,
      readLE_toLE 2 bytes.length (bytes ++ rest) (by simpa using hlen),
      readBytes_append, hchars, interpConst]
    norm_num [hchars]

theorem read_constants_encode (l : List ConstRecord) (rest : List Nat)
    (h : l.all wfConst = true) :
    read_constants l.length ((l.map encodeConst).flatten ++ rest) =
      .ok (l.map interpConst, rest) := by
  induction l with
  | nil => rfl
  | cons c cs ih =>
    simp only [List.all_cons, Bool.and_eq_true] at h
    simp only [List.map_cons, List.flatten_cons, List.length_cons, List.append_assoc,
      read_constants, read_constant_encode c _ h.1, ih h.2, List.map_cons]

theorem read_instructions_encode (l : List Instruction) (rest : List Nat)
    (h : l.all wfInstruction = true) :
    read_instructions l.length ((l.map encodeInstruction).flatten ++ rest) = .ok (l, rest) := by
  induction l with
  | nil => rfl
  | cons i is ih =>
    simp only [List.all_cons, Bool.and_eq_true] at h
    obtain ⟨hi, his⟩ := h
    simp only [wfInstruction, Bool.and_eq_true] at hi
    simp only [List.map_cons, List.flatten_cons, List.length_cons, List.append_assoc,
      read_instructions, encodeInstruction, List.cons_append, readLE_one, from_u8_toU8]
    have h1 : i.operand.isSome = i.opcode.has_operand := by simpa using hi.1
    cases hop : i.operand with
    | some v =>
      rw [hop] at h1
      simp only [Option.isSome_some] at h1
      have hhas : i.opcode.has_operand = true := h1.symm
      have hv : v < 2 ^ 16 := by
        have := hi.2
        rw [hop] at this
        simpa using this
      simp only [hop, hhas, if_true, List.append_assoc,
        readLE_toLE 2 v _ (by simpa using hv), ih his]
      exact congrArg _ (by rw [← hop])
    | none =>
      rw [hop] at h1
      simp only [Option.isSome_none] at h1
      have hhas : i.opcode.has_operand = false := h1.symm
      simp only [hop, hhas, if_false, List.nil_append, ih his]
      exact congrArg _ (by rw [← hop])

theorem read_function_encode (f : Function) (rest : List Nat) (h : wfFunction f = true) :
    read_function (encodeFunction f ++ rest) = .ok (f, rest) := by
  simp only [wfFunction, Bool.and_eq_true, decide_eq_true_eq] at h
  obtain ⟨⟨hil, hna⟩, hall⟩ := h
  simp only [encodeFunction, List.append_assoc, read_function,
    readLE_toLE 4 f.instructions.length _ (by simpa using hil),
    readLE_toLE 4 f.num_args _ (by simpa using hna),
    read_instructions_encode f.instructions rest hall]

theorem read_functions_encode (l : List Function) (rest : List Nat)
    (h : l.all wfFunction = true) :
    read_functions l.length ((l.map encodeFunction).flatten ++ rest) = .ok (l, rest) := by
  induction l with
  | nil => rfl
  | cons f fs ih =>
    simp only [List.all_cons, Bool.and_eq_true] at h
    simp only [List.map_cons, List.flatten_cons, List.length_cons, List.append_assoc,
      read_functions, read_function_encode f _ h.1, ih h.2]

theorem from_bytes_encodeModule (t : ModuleTree) (h : wfModule t = true) :
    Bytecode.from_bytes (encodeModule t) =
      .ok ⟨t.functions, t.constants.map interpConst⟩ := by
  simp only [wfModule, Bool.and_eq_true, decide_eq_true_eq] at h
  obtain ⟨⟨⟨hcl, hfl⟩, hcall⟩, hfall⟩ := h
  have hmagic : readBytes 4 (encodeModule t) =
      some (MAGIC, 1 :: (toLE 4 t.constants.length ++ (t.constants.map encodeConst).flatten
        ++ toLE 4 t.functions.length ++ (t.functions.map encodeFunction).flatten)) := by
    simpa [encodeModule, MAGIC] using
      readBytes_append MAGIC (1 :: (toLE 4 t.constants.length
        ++ (t.constants.map encodeConst).flatten ++ toLE 4 t.functions.length
        ++ (t.functions.map encodeFunction).flatten))
  simp only [Bytecode.from_bytes, hmagic, if_pos rfl, readLE_one, if_pos rfl, List.append_assoc,
    readLE_toLE 4 t.constants.length _ (by simpa using hcl),
    read_constants_encode t.constants _ hcall,
    readLE_toLE 4 t.functions.length _ (by simpa using hfl)]
  rw [← List.append_nil ((t.functions.map encodeFunction).flatten)]
  simp only [read_functions_encode t.functions [] hfall]
  simp

/-! ## Operand-arity invariant of the loader -/

theorem read_instructions_invariant (k : Nat) :
    ∀ (s : List Nat) (instrs : List Instruction) (s2 : List Nat),
      read_instructions k s = .ok (instrs, s2) →
      ∀ i ∈ instrs, i.operand.isSome = i.opcode.has_operand := by
  induction k with
  | zero =>
    intro s instrs s2 h i hi
    simp only [read_instructions] at h
    injection h with h'
    injection h' with h1 h2
    subst h1
    simp at hi
  | succ k ih =>
    intro s instrs s2 h i hi
    simp only [read_instructions] at h
    cases hr1 : readLE 1 s with
    | none =>
      rw [hr1] at h
      exact Except.noConfusion h
    | some p =>
      obtain ⟨b, s1⟩ := p
      rw [hr1] at h
      dsimp only at h
      cases hfu : Opcode.from_u8 b with
      | error e =>
        rw [hfu] at h
        exact Except.noConfusion h
      | ok opcode =>
        rw [hfu] at h
        dsimp only at h
        by_cases hop : opcode.has_operand
        · rw [if_pos hop] at h
          cases hr2 : readLE 2 s1 with
          | none =>
            rw [hr2] at h
            exact Except.noConfusion h
          | some q =>
            obtain ⟨v, s2'⟩ := q
            rw [hr2] at h
            dsimp only at h
            cases hrec : read_instructions k s2' with
            | error e =>
              rw [hrec] at h
              exact Except.noConfusion h
            | ok r =>
              obtain ⟨instrs', s3⟩ := r
              rw [hrec] at h
              dsimp only at h
              injection h with h'
              injection h' with h1 h2
              subst h1
              rcases List.mem_cons.mp hi with rfl | hmem
              · simp [hop]
              · exact ih s2' instrs' s3 hrec i hmem
        · rw [if_neg hop] at h
          cases hrec : read_instructions k s1 with
          | error e =>
            rw [hrec] at h
            exact Except.noConfusion h
          | ok r =>
            obtain ⟨instrs', s3⟩ := r
            rw [hrec] at h
            dsimp only at h
            injection h with h'
            injection h' with h1 h2
            subst h1
            rcases List.mem_cons.mp hi with rfl | hmem
            · simp [Bool.not_eq_true] at hop
              simp [hop]
            · exact ih s1 instrs' s3 hrec i hmem

theorem read_function_invariant (s : List Nat) (f : Function) (s2 : List Nat)
    (h : read_function s = .ok (f, s2)) :
    ∀ i ∈ f.instructions, i.operand.isSome = i.opcode.has_operand := by
  simp only [read_function] at h
  cases hr1 : readLE 4 s with
  | none =>
    rw [hr1] at h
    exact Except.noConfusion h
  | some p =>
    obtain ⟨num_instructions, s1⟩ := p
    rw [hr1] at h
    dsimp only at h
    cases hr2 : readLE 4 s1 with
    | none =>
      rw [hr2] at h
      exact Except.noConfusion h
    | some q =>
      obtain ⟨num_args, s2'⟩ := q
      rw [hr2] at h
      dsimp only at h
      cases hri : read_instructions num_instructions s2' with
      | error e =>
        rw [hri] at h
        exact Except.noConfusion h
      | ok r =>
        obtain ⟨instructions, s3⟩ := r
        rw [hri] at h
        dsimp only at h
        injection h with h'
        injection h' with h1 h2
        subst h1
        exact read_instructions_invariant num_instructions s2' instructions s3 hri

theorem read_functions_invariant (k : Nat) :
    ∀ (s : List Nat) (fs : List Function) (s2 : List Nat),
      read_functions k s = .ok (fs, s2) →
      ∀ f ∈ fs, ∀ i ∈ f.instructions, i.operand.isSome = i.opcode.has_operand := by
  induction k with
  | zero =>
    intro s fs s2 h f hf
    simp only [read_functions] at h
    injection h with h'
    injection h' with h1 h2
    subst h1
    simp at hf
  | succ k ih =>
    intro s fs s2 h f hf
    simp only [read_functions] at h
    cases hrf : read_function s with
    | error e =>
      rw [hrf] at h
      exact Except.noConfusion h
    | ok p =>
      obtain ⟨f1, s1⟩ := p
      rw [hrf] at h
      dsimp only at h
      cases hrec : read_functions k s1 with
      | error e =>
        rw [hrec] at h
        exact Except.noConfusion h
      | ok r =>
        obtain ⟨fs', s3⟩ := r
        rw [hrec] at h
        dsimp only at h
        injection h with h'
        injection h' with h1 h2
        subst h1
        rcases List.mem_cons.mp hf with rfl | hmem
        · exact read_function_invariant s f s1 hrf
        · exact ih s1 fs' s3 hrec f hmem

theorem from_bytes_operand_invariant (s : List Nat) (bc : Bytecode)
    (h : Bytecode.from_bytes s = .ok bc) :
    ∀ f ∈ bc.functions, ∀ i ∈ f.instructions,
      i.operand.isSome = i.opcode.has_operand := by
  simp only [Bytecode.from_bytes] at h
  cases hm : readBytes 4 s with
  | none =>
    rw [hm] at h
    exact Except.noConfusion h
  | some p =>
    obtain ⟨magic, s1⟩ := p
    rw [hm] at h
    dsimp only at h
    by_cases hmg : magic = MAGIC
    · rw [if_pos hmg] at h
      cases hv : readLE 1 s1 with
      | none =>
        rw [hv] at h
        exact Except.noConfusion h
      | some q =>
        obtain ⟨version, s2⟩ := q
        rw [hv] at h
        dsimp only at h
        by_cases hv1 : version = 1
        · rw [if_pos hv1] at h
          cases hnc : readLE 4 s2 with
          | none =>
            rw [hnc] at h
            exact Except.noConfusion h
          | some r =>
            obtain ⟨num_constants, s3⟩ := r
            rw [hnc] at h
            dsimp only at h
            cases hrc : read_constants num_constants s3 with
            | error e =>
              rw [hrc] at h
              exact Except.noConfusion h
            | ok cp =>
              obtain ⟨constants, s4⟩ := cp
              rw [hrc] at h
              dsimp only at h
              cases hnf : readLE 4 s4 with
              | none =>
                rw [hnf] at h
                exact Except.noConfusion h
              | some u =>
                obtain ⟨num_functions, s5⟩ := u
                rw [hnf] at h
                dsimp only at h
                cases hrf : read_functions num_functions s5 with
                | error e =>
                  rw [hrf] at h
                  exact Except.noConfusion h
                | ok fp =>
                  obtain ⟨functions, s6⟩ := fp
                  rw [hrf] at h
                  dsimp only at h
                  injection h with h'
                  subst h'
                  exact read_functions_invariant num_functions s5 functions s6 hrf
        · rw [if_neg hv1] at h
          exact Except.noConfusion h
    · rw [if_neg hmg] at h
      exact Except.noConfusion h

/-! ## Argument binding -/

theorem bindArgs_append (r : List Value) :
    ∀ (s : List Value) (caller callee : CallFrame), caller.stack = r ++ s →
    bindArgs r.length caller callee =
      some ({ caller with stack := s },
        { callee with locals := fun j =>
            if j < r.length then r[r.length - 1 - j]? else callee.locals j }) := by
  induction r with
  | nil =>
    intro s caller callee h
    simp only [List.nil_append] at h
    obtain ⟨ip, fi, st, lo⟩ := caller
    simp only at h
    subst h
    simp only [List.length_nil, bindArgs]
    congr 2
  | cons a r' ih =>
    intro s caller callee h
    obtain ⟨ip, fi, st, lo⟩ := caller
    simp only at h
    subst h
    show bindArgs r'.length
      { instruction_pointer := ip, function_index := fi, stack := r' ++ s, locals := lo }
      (callee.set_local r'.length a) = _
    rw [ih s { instruction_pointer := ip, function_index := fi, stack := r' ++ s, locals := lo }
      (callee.set_local r'.length a) rfl]
    congr 2
    dsimp only [CallFrame.set_local]
    congr 1
    funext j
    simp only [List.length_cons]
    rcases Nat.lt_trichotomy j r'.length with hj | hj | hj
    · rw [if_pos hj, if_pos (Nat.lt_succ_of_lt hj)]
      have h2 : r'.length + 1 - 1 - j = (r'.length - 1 - j) + 1 := by omega
      rw [h2, List.getElem?_cons_succ]
    · rw [hj, if_neg (lt_irrefl r'.length), if_pos rfl, if_pos (Nat.lt_succ_self r'.length)]
      have h2 : r'.length + 1 - 1 - r'.length = 0 := by omega
      rw [h2, List.getElem?_cons_zero]
    · rw [if_neg (by omega), if_neg (by omega), if_neg (by omega)]

/-! ## Claim theorems -/

/-- C9: executing `get-local` on a slot index that was never bound in the
current frame (by a prior `set-local` or call-time argument binding) is a
fatal fault; no default or zero value is ever substituted. -/
theorem get_local_missing_faults (ops : FloatOps) (vm : VirtualMachine) (fr : CallFrame)
    (rest : List CallFrame) (cf : Function) (idx : Nat)
    (hfr : vm.frames = fr :: rest)
    (hfn : vm.bytecode.get_function fr.function_index = some cf)
    (hins : cf.get_instruction fr.instruction_pointer = some ⟨.GetLocal, some idx⟩)
    (hmiss : fr.locals idx = none) :
    step ops vm = .fault "Local variable not found." := by
  obtain ⟨isr, bc, frames, out⟩ := vm
  simp only at hfr hfn
  subst hfr
  simp only [step, hfn, hins, hmiss]

/-- Concrete fixture for the `get-local` fault: a single-instruction
function `get-local 0`. -/
def fnW9 : Function := ⟨[⟨.GetLocal, some 0⟩], 0⟩

/-- Concrete fixture for the `get-local` fault: a machine with no locals
bound, about to run `get-local 0`. -/
def vmW9 : VirtualMachine := ⟨true, ⟨[fnW9], []⟩, [CallFrame.new 0], []⟩

theorem get_local_missing_faults_witness :
    vmW9.frames = CallFrame.new 0 :: [] ∧
    vmW9.bytecode.get_function (CallFrame.new 0).function_index = some fnW9 ∧
    fnW9.get_instruction (CallFrame.new 0).instruction_pointer = some ⟨.GetLocal, some 0⟩ ∧
    (CallFrame.new 0).locals 0 = none ∧
    step natOps vmW9 = .fault "Local variable not found." :=
  ⟨by rfl, by rfl, by rfl, by rfl,
    get_local_missing_faults natOps vmW9 (CallFrame.new 0) [] fnW9 0
      (by rfl) (by rfl) (by rfl) (by rfl)⟩

/-- C7: each step fetches the instruction at the current frame's pointer
from its owning function, and a pointer at or past the instruction count is
a fatal fault (no implicit halt on fallthrough); the pointer is advanced
before dispatch, and a `jump` sets the pointer to the operand as an
absolute index, unaffected by the pre-increment. -/
theorem fetch_fault_and_absolute_jump (ops : FloatOps) (vm : VirtualMachine) (fr : CallFrame)
    (rest : List CallFrame) (cf : Function)
    (hfr : vm.frames = fr :: rest)
    (hfn : vm.bytecode.get_function fr.function_index = some cf) :
    (cf.instructions.length ≤ fr.instruction_pointer →
      step ops vm = .fault "Invalid instruction index") ∧
    (∀ t : Nat, cf.get_instruction fr.instruction_pointer = some ⟨.Jump, some t⟩ →
      step ops vm = .ok { vm with frames :=
        { instruction_pointer := t, function_index := fr.function_index,
          stack := fr.stack, locals := fr.locals } :: rest }) := by
  obtain ⟨isr, bc, frames, out⟩ := vm
  simp only at hfr hfn
  subst hfr
  constructor
  · intro hlen
    have hnone : cf.get_instruction fr.instruction_pointer = none := by
      simp [Function.get_instruction, List.getElem?_eq_none hlen]
    simp only [step, hfn, hnone]
  · intro t hins
    simp only [step, hfn, hins]

/-- Concrete fixture for fetch/jump: a single-instruction function
`jump 5`. -/
def fnW7 : Function := ⟨[⟨.Jump, some 5⟩], 0⟩

/-- Concrete fixture for fetch/jump: a machine about to run `jump 5`. -/
def vmW7 : VirtualMachine := ⟨true, ⟨[fnW7], []⟩, [CallFrame.new 0], []⟩

theorem fetch_fault_and_absolute_jump_witness :
    vmW7.frames = CallFrame.new 0 :: [] ∧
    vmW7.bytecode.get_function (CallFrame.new 0).function_index = some fnW7 ∧
    fnW7.get_instruction (CallFrame.new 0).instruction_pointer = some ⟨.Jump, some 5⟩ ∧
    step natOps vmW7 = .ok { vmW7 with frames :=
      [⟨5, (CallFrame.new 0).function_index, (CallFrame.new 0).stack, (CallFrame.new 0).locals⟩] } :=
  ⟨by rfl, by rfl, by rfl,
    (fetch_fault_and_absolute_jump natOps vmW7 (CallFrame.new 0) [] fnW7
      (by rfl) (by rfl)).2 5 (by rfl)⟩

/-- The Boolean a conditional jump opcode matches to take the branch:
`jump-if-true` jumps on `true`, `jump-if-false` on `false`. -/
def branchCond : Opcode → Bool
  | .JumpIfTrue => true
  | _ => false

/-- Concrete fixture refuting the fatal-fault reading of conditional
jumps: a machine about to run `jump-if-true 0` with a Number on the
stack. -/
def vmX2 : VirtualMachine := ⟨true, ⟨[⟨[⟨.JumpIfTrue, some 0⟩], 0⟩], []⟩,
  [⟨0, 0, [Value.Number 7], fun _ => none⟩], []⟩

/-- C2, counterexample: a `jump-if-true` that pops the non-Boolean value
`Number 7` does NOT raise a fatal fault — the step succeeds and simply
falls through, contradicting the claim that a popped non-Boolean value is
fatal. -/
theorem conditional_jump_nonboolean_ok :
    step natOps vmX2 = .ok ⟨true, ⟨[⟨[⟨.JumpIfTrue, some 0⟩], 0⟩], []⟩,
      [⟨1, 0, [], fun _ => none⟩], []⟩ := by
  rfl

/-- C2, amended: `jump-if-true` / `jump-if-false` pop one value; when the
popped value is the Boolean matching the instruction's branch condition
the pointer is set to the operand, and on ANY other popped value —
including every non-Boolean value, which is not a fault — the
already-advanced pointer is kept (fallthrough); the popped value is never
re-pushed. -/
theorem conditional_jump_step (ops : FloatOps) (vm : VirtualMachine) (fr : CallFrame)
    (rest : List CallFrame) (cf : Function) (op : Opcode) (t : Nat) (v : Value) (s : List Value)
    (hfr : vm.frames = fr :: rest)
    (hfn : vm.bytecode.get_function fr.function_index = some cf)
    (hins : cf.get_instruction fr.instruction_pointer = some ⟨op, some t⟩)
    (hop : op = .JumpIfTrue ∨ op = .JumpIfFalse)
    (hstack : fr.stack = v :: s) :
    step ops vm = .ok { vm with frames :=
      { instruction_pointer := if v = .Boolean (branchCond op) then t else fr.instruction_pointer + 1,
        function_index := fr.function_index, stack := s, locals := fr.locals } :: rest } := by
  obtain ⟨isr, bc, frames, out⟩ := vm
  simp only at hfr hfn
  subst hfr
  rcases hop with rfl | rfl
  · rcases v with bits | b | str
    · simp [step, hfn, hins, hstack, branchCond]
    · cases b <;> simp [step, hfn, hins, hstack, branchCond]
    · simp [step, hfn, hins, hstack, branchCond]
  · rcases v with bits | b | str
    · simp [step, hfn, hins, hstack, branchCond]
    · cases b <;> simp [step, hfn, hins, hstack, branchCond]
    · simp [step, hfn, hins, hstack, branchCond]

/-- Concrete fixture for the amended conditional-jump law: a machine about
to run `jump-if-false 9` with Boolean false on the stack. -/
def vmW2 : VirtualMachine := ⟨true, ⟨[⟨[⟨.JumpIfFalse, some 9⟩], 0⟩], []⟩,
  [⟨0, 0, [Value.Boolean false], fun _ => none⟩], []⟩

theorem conditional_jump_step_witness :
    vmW2.frames = (⟨0, 0, [Value.Boolean false], fun _ => none⟩ : CallFrame) :: [] ∧
    (Opcode.JumpIfFalse = Opcode.JumpIfTrue ∨ Opcode.JumpIfFalse = Opcode.JumpIfFalse) ∧
    step natOps vmW2 = .ok { vmW2 with frames :=
      [⟨if (Value.Boolean false : Value) = .Boolean (branchCond .JumpIfFalse) then 9 else 0 + 1,
        0, [], fun _ => none⟩] } :=
  ⟨by rfl, .inr rfl,
    conditional_jump_step natOps vmW2 ⟨0, 0, [Value.Boolean false], fun _ => none⟩ []
      ⟨[⟨.JumpIfFalse, some 9⟩], 0⟩ .JumpIfFalse 9 (Value.Boolean false) []
      (by rfl) (by rfl) (by rfl) (.inr rfl) (by rfl)⟩

/-- C3: a `return` step takes the return value from the top of the current
frame's operand stack, or Boolean false when that stack is empty; the
current frame is destroyed, and when a caller frame remains the return
value is pushed onto its operand stack. -/
theorem return_step (ops : FloatOps) (vm : VirtualMachine) (fr : CallFrame)
    (rest : List CallFrame) (cf : Function) (ins : Instruction)
    (hfr : vm.frames = fr :: rest)
    (hfn : vm.bytecode.get_function fr.function_index = some cf)
    (hins : cf.get_instruction fr.instruction_pointer = some ins)
    (hop : ins.opcode = .Return) :
    step ops vm = .ok { vm with frames :=
      match rest with
      | [] => []
      | caller :: rs =>
        { caller with stack := fr.stack.headD (Value.Boolean false) :: caller.stack } :: rs } := by
  obtain ⟨isr, bc, frames, out⟩ := vm
  simp only at hfr hfn
  subst hfr
  cases hst : fr.stack <;> cases rest <;>
    simp only [step, hfn, hins, hop, hst, List.headD]

/-- Concrete fixture for `return`: a callee frame with an empty operand
stack returning to a caller frame. -/
def vmW3 : VirtualMachine := ⟨true, ⟨[⟨[⟨.Return, none⟩], 0⟩], []⟩,
  [⟨0, 0, [], fun _ => none⟩, ⟨4, 0, [Value.Number 1], fun _ => none⟩], []⟩

theorem return_step_witness :
    vmW3.frames = (⟨0, 0, [], fun _ => none⟩ : CallFrame) ::
      [⟨4, 0, [Value.Number 1], fun _ => none⟩] ∧
    step natOps vmW3 = .ok { vmW3 with frames :=
      [⟨4, 0, Value.Boolean false :: [Value.Number 1], fun _ => none⟩] } :=
  ⟨by rfl,
    return_step natOps vmW3 ⟨0, 0, [], fun _ => none⟩
      [⟨4, 0, [Value.Number 1], fun _ => none⟩] ⟨[⟨.Return, none⟩], 0⟩ ⟨.Return, none⟩
      (by rfl) (by rfl) (by rfl) (by rfl)⟩

/-- The seven opcodes dispatched to `VirtualMachine::binary_op`. -/
def isBinaryOp : Opcode → Bool
  | .Add | .Subtract | .Multiply | .Divide | .Modulo | .And | .Or => true
  | _ => false

/-- C4: every binary arithmetic/boolean instruction pops twice — the value
popped first (`v2`, the old stack top) is the right operand, the value
popped second (`v1`, pushed first) is the left operand, so `push a; push b;
op` computes `a OP b` — pushes the result, and faults on a variant
mismatch (the `Except.error` branch of the operation table). -/
theorem binary_op_step (ops : FloatOps) (vm : VirtualMachine) (fr : CallFrame)
    (rest : List CallFrame) (cf : Function) (ins : Instruction) (v1 v2 : Value) (s : List Value)
    (hfr : vm.frames = fr :: rest)
    (hfn : vm.bytecode.get_function fr.function_index = some cf)
    (hins : cf.get_instruction fr.instruction_pointer = some ins)
    (hbin : isBinaryOp ins.opcode = true)
    (hstack : fr.stack = v2 :: v1 :: s) :
    (∀ r, binApply ops ins.opcode v1 v2 = .ok r →
      step ops vm = .ok { vm with frames :=
        { instruction_pointer := fr.instruction_pointer + 1, function_index := fr.function_index,
          stack := r :: s, locals := fr.locals } :: rest }) ∧
    (∀ msg, binApply ops ins.opcode v1 v2 = .error msg → step ops vm = .fault msg) := by
  obtain ⟨isr, bc, frames, out⟩ := vm
  simp only at hfr hfn
  subst hfr
  obtain ⟨opc, oper⟩ := ins
  simp only at hbin ⊢
  cases opc <;> try exact Bool.noConfusion hbin
  all_goals
    refine ⟨fun r hba => ?_, fun msg hba => ?_⟩ <;>
      (simp only [binApply] at hba
       simp only [step, hfn, hins, binary_op, hstack, binApply, hba])

/-- Concrete fixture for the binary-operation law: `push 3; push 4;
subtract` about to execute the `subtract`. -/
def vmW4 : VirtualMachine := ⟨true, ⟨[⟨[⟨.Subtract, none⟩], 0⟩], []⟩,
  [⟨0, 0, [Value.Number 4, Value.Number 3], fun _ => none⟩], []⟩

theorem binary_op_step_witness :
    vmW4.frames = (⟨0, 0, [Value.Number 4, Value.Number 3], fun _ => none⟩ : CallFrame) :: [] ∧
    binApply natOps .Subtract (Value.Number 3) (Value.Number 4) = .ok (Value.Number (3 - 4)) ∧
    step natOps vmW4 = .ok { vmW4 with frames :=
      [⟨1, 0, [Value.Number (3 - 4)], fun _ => none⟩] } :=
  ⟨by rfl, by rfl,
    (binary_op_step natOps vmW4 ⟨0, 0, [Value.Number 4, Value.Number 3], fun _ => none⟩ []
      ⟨[⟨.Subtract, none⟩], 0⟩ ⟨.Subtract, none⟩ (Value.Number 3) (Value.Number 4) []
      (by rfl) (by rfl) (by rfl) (by rfl) (by rfl)).1 (Value.Number (3 - 4)) (by rfl)⟩

/-- C8: an `equal` step pops twice and pushes the Boolean of the source's
`PartialEq` comparison without ever faulting; that comparison is always
false across different variants (every pairing of Number/Boolean/String)
and is payload equality on a shared variant. -/
theorem equal_step (ops : FloatOps) (vm : VirtualMachine) (fr : CallFrame)
    (rest : List CallFrame) (cf : Function) (ins : Instruction) (v1 v2 : Value) (s : List Value)
    (hfr : vm.frames = fr :: rest)
    (hfn : vm.bytecode.get_function fr.function_index = some cf)
    (hins : cf.get_instruction fr.instruction_pointer = some ins)
    (hop : ins.opcode = .Equal)
    (hstack : fr.stack = v2 :: v1 :: s) :
    step ops vm = .ok { vm with frames :=
      { instruction_pointer := fr.instruction_pointer + 1, function_index := fr.function_index,
        stack := Value.Boolean (Value.eqv ops v1 v2) :: s, locals := fr.locals } :: rest } ∧
    (∀ a b : Value, a.sameVariant b = false → Value.eqv ops a b = false) ∧
    (∀ x y, Value.eqv ops (.Number x) (.Number y) = ops.feq x y) ∧
    (∀ x y, Value.eqv ops (.Boolean x) (.Boolean y) = (x == y)) ∧
    (∀ x y, Value.eqv ops (.Str x) (.Str y) = (x == y)) := by
  refine ⟨?_, ?_, fun x y => rfl, fun x y => rfl, fun x y => rfl⟩
  · obtain ⟨isr, bc, frames, out⟩ := vm
    simp only at hfr hfn
    subst hfr
    simp only [step, hfn, hins, hop, hstack]
  · intro a b hab
    cases a <;> cases b <;> simp_all [Value.eqv, Value.sameVariant]

/-- Concrete fixture for `equal`: comparing the Number 3 with the Boolean
true. -/
def vmW8 : VirtualMachine := ⟨true, ⟨[⟨[⟨.Equal, none⟩], 0⟩], []⟩,
  [⟨0, 0, [Value.Boolean true, Value.Number 3], fun _ => none⟩], []⟩

theorem equal_step_witness :
    vmW8.frames = (⟨0, 0, [Value.Boolean true, Value.Number 3], fun _ => none⟩ : CallFrame) :: [] ∧
    Value.eqv natOps (Value.Number 3) (Value.Boolean true) = false ∧
    step natOps vmW8 = .ok { vmW8 with frames :=
      [⟨1, 0, [Value.Boolean (Value.eqv natOps (Value.Number 3) (Value.Boolean true))],
        fun _ => none⟩] } :=
  ⟨by rfl, by rfl,
    (equal_step natOps vmW8 ⟨0, 0, [Value.Boolean true, Value.Number 3], fun _ => none⟩ []
      ⟨[⟨.Equal, none⟩], 0⟩ ⟨.Equal, none⟩ (Value.Number 3) (Value.Boolean true) []
      (by rfl) (by rfl) (by rfl) (by rfl) (by rfl)).1⟩

/-- C1: a `call` to a function declaring `n` arguments pops exactly `n`
values off the caller's operand stack and binds them to the callee's local
slots `0..n-1` in original push order: with the caller's stack holding the
pushes `w` (so the stack reads `w.reverse ++ s` top-first), the callee
starts at pointer 0 with slot `j` holding `w[j]?` and the caller retains
exactly `s`. -/
theorem call_binds_arguments (ops : FloatOps) (vm : VirtualMachine) (fr : CallFrame)
    (rest : List CallFrame) (cf : Function) (fidx : Nat) (callee : Function)
    (w s : List Value)
    (hfr : vm.frames = fr :: rest)
    (hfn : vm.bytecode.get_function fr.function_index = some cf)
    (hins : cf.get_instruction fr.instruction_pointer = some ⟨.Call, some fidx⟩)
    (hcallee : vm.bytecode.get_function fidx = some callee)
    (hn : callee.num_args = w.length)
    (hstack : fr.stack = w.reverse ++ s) :
    step ops vm = .ok { vm with frames :=
      { instruction_pointer := 0, function_index := fidx, stack := [],
        locals := fun j => w[j]? } ::
      { instruction_pointer := fr.instruction_pointer + 1, function_index := fr.function_index,
        stack := s, locals := fr.locals } :: rest } := by
  obtain ⟨isr, bc, frames, out⟩ := vm
  simp only at hfr hfn hcallee
  subst hfr
  have hb := bindArgs_append w.reverse s
    { fr with instruction_pointer := fr.instruction_pointer + 1 } (CallFrame.new fidx)
    (by simpa using hstack)
  rw [List.length_reverse] at hb
  have hloc : (fun j => if j < w.length then w.reverse[w.length - 1 - j]?
      else (CallFrame.new fidx).locals j) = fun j => w[j]? := by
    funext j
    simp only [CallFrame.new]
    by_cases hj : j < w.length
    · rw [if_pos hj, List.getElem?_reverse (by omega)]
      exact congrArg (fun i => w[i]?) (by omega : w.length - 1 - (w.length - 1 - j) = j)
    · rw [if_neg hj, eq_comm]
      exact List.getElem?_eq_none (by omega)
  rw [hloc] at hb
  simp only [step, hfn, hins, hcallee, hn, hb]
  rfl

/-- Concrete fixture for `call`: function 0 pushes `Number 1` then
`Boolean true` and calls function 1, which declares two arguments. -/
def vmW1 : VirtualMachine := ⟨true,
  ⟨[⟨[⟨.Call, some 1⟩], 0⟩, ⟨[⟨.Return, none⟩], 2⟩], []⟩,
  [⟨0, 0, [Value.Boolean true, Value.Number 1], fun _ => none⟩], []⟩

theorem call_binds_arguments_witness :
    vmW1.frames = (⟨0, 0, [Value.Boolean true, Value.Number 1], fun _ => none⟩ : CallFrame) :: [] ∧
    vmW1.bytecode.get_function 1 = some ⟨[⟨.Return, none⟩], 2⟩ ∧
    (⟨[⟨.Return, none⟩], 2⟩ : Function).num_args = [Value.Number 1, Value.Boolean true].length ∧
    step natOps vmW1 = .ok { vmW1 with frames :=
      [⟨0, 1, [], fun j => [Value.Number 1, Value.Boolean true][j]?⟩,
       ⟨1, 0, [], fun _ => none⟩] } :=
  ⟨by rfl, by rfl, by rfl,
    call_binds_arguments natOps vmW1 ⟨0, 0, [Value.Boolean true, Value.Number 1], fun _ => none⟩ []
      ⟨[⟨.Call, some 1⟩], 0⟩ 1 ⟨[⟨.Return, none⟩], 2⟩
      [Value.Number 1, Value.Boolean true] []
      (by rfl) (by rfl) (by rfl) (by rfl) (by rfl) (by rfl)⟩

/-- C5: every byte stream that exactly matches the §6 grammar (correct
magic, version 1, well-formed constant and function records — the stream
`encodeModule t` of a well-formed module tree `t`) loads successfully, and
the resulting program carries the constants in order with their decoded
values and the functions verbatim — same order, same declared argument
counts, same instruction sequences. -/
theorem load_roundtrip (t : ModuleTree) (h : wfModule t = true) :
    Bytecode.from_bytes (encodeModule t) = .ok ⟨t.functions, t.constants.map interpConst⟩ :=
  from_bytes_encodeModule t h

/-- Concrete fixture for the loader round-trip: three constants (a number,
a boolean, a two-character UTF-8 string) and one two-instruction
function. -/
def tW5 : ModuleTree :=
  ⟨[.num 3, .boolean 1, .str [0x41, 0xC3, 0xA9]],
   [⟨[⟨.PushConst, some 0⟩, ⟨.Halt, none⟩], 0⟩]⟩

theorem load_roundtrip_witness :
    wfModule tW5 = true ∧
    Bytecode.from_bytes (encodeModule tW5) = .ok ⟨tW5.functions, tW5.constants.map interpConst⟩ ∧
    tW5.constants.map interpConst =
      [Value.Number 3, Value.Boolean true, Value.Str (String.mk ['A', 'é'])] :=
  ⟨by decide, load_roundtrip tW5 (by decide), by decide⟩

/-- C6: in every program the loader produces, an instruction carries an
operand exactly when `Opcode.has_operand` — the static arity table the
engine's operand accesses rely on — declares one; `read_function` reads the
trailing 2-byte operand under precisely that test. -/
theorem loaded_operand_arity (s : List Nat) (bc : Bytecode)
    (h : Bytecode.from_bytes s = .ok bc) :
    ∀ f ∈ bc.functions, ∀ i ∈ f.instructions,
      i.operand.isSome = i.opcode.has_operand :=
  from_bytes_operand_invariant s bc h

/-- Concrete fixture for the operand-arity invariant: the encoded bytes of
a module with one function holding `push-const 2; add; halt`. -/
def sW6 : List Nat :=
  encodeModule ⟨[], [⟨[⟨.PushConst, some 2⟩, ⟨.Add, none⟩, ⟨.Halt, none⟩], 0⟩]⟩

theorem loaded_operand_arity_witness :
    Bytecode.from_bytes sW6 =
      .ok ⟨[⟨[⟨.PushConst, some 2⟩, ⟨.Add, none⟩, ⟨.Halt, none⟩], 0⟩], []⟩ ∧
    (⟨.PushConst, some 2⟩ : Instruction).operand.isSome =
      (⟨.PushConst, some 2⟩ : Instruction).opcode.has_operand ∧
    (⟨.Add, none⟩ : Instruction).operand.isSome =
      (⟨.Add, none⟩ : Instruction).opcode.has_operand :=
  ⟨by rfl,
    loaded_operand_arity sW6 ⟨[⟨[⟨.PushConst, some 2⟩, ⟨.Add, none⟩, ⟨.Halt, none⟩], 0⟩], []⟩
      (by rfl) ⟨[⟨.PushConst, some 2⟩, ⟨.Add, none⟩, ⟨.Halt, none⟩], 0⟩ (by decide)
      ⟨.PushConst, some 2⟩ (by decide),
    loaded_operand_arity sW6 ⟨[⟨[⟨.PushConst, some 2⟩, ⟨.Add, none⟩, ⟨.Halt, none⟩], 0⟩], []⟩
      (by rfl) ⟨[⟨.PushConst, some 2⟩, ⟨.Add, none⟩, ⟨.Halt, none⟩], 0⟩ (by decide)
      ⟨.Add, none⟩ (by decide)⟩

/-- C10: the loader accepts a §6-conforming module whose function count is
zero — it never checks that a function at index 0 exists — and the engine
run on any program with an empty function table faults immediately at the
first loop iteration (the `get_function 0` of the initial frame), before
any instruction is fetched or executed. -/
theorem empty_function_table (t : ModuleTree) (ht : t.functions = [])
    (h : wfModule t = true) :
    Bytecode.from_bytes (encodeModule t) = .ok ⟨[], t.constants.map interpConst⟩ ∧
    ∀ (ops : FloatOps) (fuel : Nat) (bc : Bytecode), bc.functions = [] →
      run ops (fuel + 1) bc = .fault "Invalid function index" := by
  constructor
  · rw [← ht]
    exact from_bytes_encodeModule t h
  · intro ops fuel bc hbc
    simp [run, runLoop, step, Bytecode.get_function, CallFrame.new, hbc]

theorem empty_function_table_witness :
    (⟨[], []⟩ : ModuleTree).functions = [] ∧
    wfModule ⟨[], []⟩ = true ∧
    Bytecode.from_bytes (encodeModule ⟨[], []⟩) = .ok ⟨[], ([] : List ConstRecord).map interpConst⟩ ∧
    run natOps 1 ⟨[], []⟩ = .fault "Invalid function index" :=
  ⟨rfl, by decide, (empty_function_table ⟨[], []⟩ rfl (by decide)).1,
    (empty_function_table ⟨[], []⟩ rfl (by decide)).2 natOps 0 ⟨[], []⟩ rfl⟩

end Zircon
